import Mathlib

/-!
Verification development for the CEP 3D string-network simulation
(`cep_simulation.py`).  The pipeline phases are embedded shallowly:
NumPy float arithmetic is modelled over the reals, the 3D arrays as a
side length together with a total valuation of the integer lattice
cells, and every random draw as an explicit stream parameter (the
distributions are the entry point business; the core is a function of
the drawn values).
-/

noncomputable section

open Classical

/-- A 3-component float vector (a NumPy length-3 array). -/
structure Vec3 where
  x : ℝ
  y : ℝ
  z : ℝ

def Vec3.add (u v : Vec3) : Vec3 := ⟨u.x + v.x, u.y + v.y, u.z + v.z⟩

def Vec3.sub (u v : Vec3) : Vec3 := ⟨u.x - v.x, u.y - v.y, u.z - v.z⟩

def Vec3.smul (c : ℝ) (v : Vec3) : Vec3 := ⟨c * v.x, c * v.y, c * v.z⟩

instance : Add Vec3 := ⟨Vec3.add⟩

instance : Sub Vec3 := ⟨Vec3.sub⟩

instance : SMul ℝ Vec3 := ⟨Vec3.smul⟩

@[simp] lemma Vec3.add_def (u v : Vec3) : u + v = ⟨u.x + v.x, u.y + v.y, u.z + v.z⟩ := rfl

@[simp] lemma Vec3.sub_def (u v : Vec3) : u - v = ⟨u.x - v.x, u.y - v.y, u.z - v.z⟩ := rfl

@[simp] lemma Vec3.smul_def (c : ℝ) (v : Vec3) : c • v = ⟨c * v.x, c * v.y, c * v.z⟩ := rfl

/-- NumPy dot product of two 3-vectors. -/
def dot3 (u v : Vec3) : ℝ := u.x * v.x + u.y * v.y + u.z * v.z

/-- NumPy euclidean norm of a 3-vector. -/
def vnorm (v : Vec3) : ℝ := Real.sqrt (dot3 v v)

/-- NumPy clip of a scalar to the interval [0, 1]. -/
def clip01 (t : ℝ) : ℝ := min (max t 0) 1

/-- Source translation of `point_to_line_dist(p, a, b)`: distance from 3D
point `p` to line segment `ab`.  Projection of `p - a` onto `b - a`
normalized by the squared segment length, clipped to [0, 1], distance to
the resulting closest point.  Real-number semantics; the IEEE behaviour
of the unguarded division on a degenerate segment is captured by
`point_to_line_dist_f`. -/
def point_to_line_dist (p a b : Vec3) : ℝ :=
  let ab := b - a
  let ap := p - a
  let proj := dot3 ap ab / dot3 ab ab
  let proj2 := clip01 proj
  let closest := a + proj2 • ab
  vnorm (p - closest)

/-- Float-faithful view of `point_to_line_dist`.  The source performs the
division `dot(ap, ab) / dot(ab, ab)` without guarding the denominator.
When the segment is degenerate (`a = b`) the denominator is 0.0: in IEEE
arithmetic the quotient is inf or nan, and multiplying it back by the
all-zero vector `ab` yields nan coordinates, so the returned distance is
NaN, modelled here as `none`.  For a non-degenerate segment the float
computation follows the real one (`some`). -/
def point_to_line_dist_f (p a b : Vec3) : Option ℝ :=
  if dot3 (b - a) (b - a) = 0 then none else some (point_to_line_dist p a b)

/-- A cubic N x N x N array of floats (`np.zeros((size, size, size))` and
its descendants), modelled as the side length together with a total
valuation of the cells; only indices below `size` are meaningful. -/
structure ScalarField where
  size : ℕ
  val : ℕ → ℕ → ℕ → ℝ

/-- Python `int(x)` applied to a float: truncation toward zero. -/
def itrunc (r : ℝ) : ℤ := if 0 ≤ r then ⌊r⌋ else ⌈r⌉

/-- Lower loop bound of the rasterizer: `max(0, int(c - 3 * sigma))`. -/
def nbhdLo (c σ : ℝ) : ℤ := max 0 (itrunc (c - 3 * σ))

/-- Upper loop bound of the rasterizer: `min(size, int(c + 3 * sigma + 1))`. -/
def nbhdHi (size : ℕ) (c σ : ℝ) : ℤ := min (size : ℤ) (itrunc (c + 3 * σ + 1))

/-- Cell index `i` is visited by the loop `range(max(0, int(c - 3σ)),
min(size, int(c + 3σ + 1)))` for center coordinate `c`. -/
def inRange (size : ℕ) (c σ : ℝ) (i : ℕ) : Prop :=
  nbhdLo c σ ≤ (i : ℤ) ∧ (i : ℤ) < nbhdHi size c σ

/-- Cell `(i, j, k)` lies in the triple loop ranges (the cubic neighborhood
of the sample point `center`, clamped to the lattice). -/
def inNbhd (size : ℕ) (σ : ℝ) (center : Vec3) (i j k : ℕ) : Prop :=
  inRange size center.x σ i ∧ inRange size center.y σ j ∧ inRange size center.z σ k

/-- Effect of the three nested index loops for one sample point `center` of
segment `x1 x2`: each cell of the loop ranges is visited exactly once, and
receives `chi * exp(-dist^2 / (2 sigma^2))` when its distance `dist` to the
full segment satisfies `dist < 3 * sigma` (the source guard), so the loops
amount to this pointwise update of the grid. -/
def addSample (size : ℕ) (σ : ℝ) (x1 x2 : Vec3) (chi : ℝ) (center : Vec3)
    (g : ℕ → ℕ → ℕ → ℝ) : ℕ → ℕ → ℕ → ℝ :=
  fun i j k =>
    if inNbhd size σ center i j k ∧ point_to_line_dist ⟨(i : ℝ), (j : ℝ), (k : ℝ)⟩ x1 x2 < 3 * σ then
      g i j k +
        chi * Real.exp (-point_to_line_dist ⟨(i : ℝ), (j : ℝ), (k : ℝ)⟩ x1 x2 ^ 2 / (2 * σ ^ 2))
    else g i j k

/-- Sample parameters `np.linspace(0, 1, 10)`: the s-th value is s / 9. -/
def sampleT (s : ℕ) : ℝ := (s : ℝ) / 9

/-- Sample point `center = x1 + t * (x2 - x1)` for the s-th parameter. -/
def segCenter (x1 x2 : Vec3) (s : ℕ) : Vec3 := x1 + sampleT s • (x2 - x1)

/-- Rasterize one string segment: iterate `addSample` over the 10 sample
points in order. -/
def rasterizeSegment (size : ℕ) (σ : ℝ) (x1 x2 : Vec3) (chi : ℝ)
    (g : ℕ → ℕ → ℕ → ℝ) : ℕ → ℕ → ℕ → ℝ :=
  (List.range 10).foldl (fun g s => addSample size σ x1 x2 chi (segCenter x1 x2 s) g) g

/-- The rasterization step exactly as claim C1 and spec section 4.2 word it:
the kernel value `chi * exp(-dist^2 / (2 sigma^2))` is added to every lattice
cell of the cubic neighborhood of the sample point (clamped loop ranges), with
no condition on the distance itself.  To be compared with `addSample`, which
carries the source guard `dist < 3 * sigma`. -/
def addSampleSpec (size : ℕ) (σ : ℝ) (x1 x2 : Vec3) (chi : ℝ) (center : Vec3)
    (g : ℕ → ℕ → ℕ → ℝ) : ℕ → ℕ → ℕ → ℝ :=
  fun i j k =>
    if inNbhd size σ center i j k then
      g i j k +
        chi * Real.exp (-point_to_line_dist ⟨(i : ℝ), (j : ℝ), (k : ℝ)⟩ x1 x2 ^ 2 / (2 * σ ^ 2))
    else g i j k

/-- Claimed rasterization of one segment: `addSampleSpec` over the 10 sample
points. -/
def rasterizeSegmentSpec (size : ℕ) (σ : ℝ) (x1 x2 : Vec3) (chi : ℝ)
    (g : ℕ → ℕ → ℕ → ℝ) : ℕ → ℕ → ℕ → ℝ :=
  (List.range 10).foldl (fun g s => addSampleSpec size σ x1 x2 chi (segCenter x1 x2 s) g) g

/-- All random draws consumed by one cycle: two endpoints and one uniform
handedness draw per string, one reset-injection normal per cell, and one
oscillation normal per step and cell. -/
structure Draws where
  x1 : ℕ → Vec3
  x2 : ℕ → Vec3
  handedness : ℕ → ℝ
  reset : ℕ → ℕ → ℕ → ℝ
  osc : ℕ → ℕ → ℕ → ℕ → ℝ

/-- Chirality of the n-th string: `1 if np.random.rand() < bias else -1`
with `bias = 0.5 + delta_chi / 2`. -/
def chiDraw (d : Draws) (delta_chi : ℝ) (n : ℕ) : ℝ :=
  if d.handedness n < 0.5 + delta_chi / 2 then 1 else -1

/-- Source translation of `generate_vorticity_grid`: start from the all-zero
grid and rasterize `num_strings` random segments with biased handedness. -/
def generate_vorticity_grid (size num_strings : ℕ) (delta_chi σ : ℝ) (d : Draws) :
    ScalarField :=
  ⟨size,
    (List.range num_strings).foldl
      (fun g n => rasterizeSegment size σ (d.x1 n) (d.x2 n) (chiDraw d delta_chi n) g)
      (fun _ _ _ => 0)⟩

/-- Source translation of `inflation_stretch`: nearest-neighbor upsampling by
`stretch_factor` with the global dilution factor
`1.0 / stretch_factor ** dilution_power`.  Index arithmetic follows the
source: `old_i = int(i / scale)` with `scale = new_size / old_size` a float
quotient. -/
def inflation_stretch (grid : ScalarField) (stretch_factor dilution_power : ℕ) :
    ScalarField :=
  let old_size := grid.size
  let new_size := old_size * stretch_factor
  let scale : ℝ := (new_size : ℝ) / (old_size : ℝ)
  let dilution : ℝ := 1 / (stretch_factor : ℝ) ^ dilution_power
  ⟨new_size, fun i j k =>
    grid.val (itrunc ((i : ℝ) / scale)).toNat (itrunc ((j : ℝ) / scale)).toNat
        (itrunc ((k : ℝ) / scale)).toNat * dilution⟩

/-- One step of `reheating_oscillations`: at step `s`, with `t = s * 0.1`,
multiply the whole grid by `amp = 1 + epsilon * cos(omega * t)` and then add
the injection `delta_chi * sin(omega * t) * normal_draws`. -/
def reheat_step (ε ω delta_chi : ℝ) (noise : ℕ → ℕ → ℕ → ℕ → ℝ) (s : ℕ)
    (grid : ScalarField) : ScalarField :=
  let t : ℝ := (s : ℝ) * 0.1
  let amp : ℝ := 1 + ε * Real.cos (ω * t)
  ⟨grid.size, fun i j k =>
    grid.val i j k * amp + delta_chi * Real.sin (ω * t) * noise s i j k⟩

/-- Source translation of `reheating_oscillations`: `num_steps` sequential
in-order applications of `reheat_step` for steps 0, 1, ..., num_steps - 1. -/
def reheating_oscillations (grid : ScalarField) (num_steps : ℕ) (ε ω delta_chi : ℝ)
    (noise : ℕ → ℕ → ℕ → ℕ → ℝ) : ScalarField :=
  (List.range num_steps).foldl (fun g s => reheat_step ε ω delta_chi noise s g) grid

/-- Source translation of `compute_lambda`: `(abs(net_L) / volume) ** (1/3) * 0.04`. -/
def compute_lambda (net_L volume : ℝ) : ℝ := (|net_L| / volume) ^ ((1 : ℝ) / 3) * 0.04

/-- Source translation of `compute_v_peak`: `220 * (lamb / 0.04)`. -/
def compute_v_peak (lamb : ℝ) : ℝ := 220 * (lamb / 0.04)

/-- NumPy sum of all cells of a cubic field. -/
def fieldSum (g : ScalarField) : ℝ :=
  ∑ i in Finset.range g.size, ∑ j in Finset.range g.size, ∑ k in Finset.range g.size,
    g.val i j k

/-- The per-cycle result dictionary of `run_one_cycle`. -/
structure CycleResult where
  net_L_pre : ℝ
  net_L_post_infl : ℝ
  net_L_post_reheat : ℝ
  lambda_val : ℝ
  v_peak : ℝ
  helicity : String

/-- Source translation of `run_one_cycle` with its baked-in defaults: foam
(size 20, 50 strings, delta_chi 1e-8, sigma 1), big-flash reset injection,
inflation (factor 4, power 3), reheating (50 steps, epsilon 0.01,
omega 0.2 pi, delta_chi 1e-8), and the scalar reduction. -/
def run_one_cycle (d : Draws) : CycleResult :=
  let grid := generate_vorticity_grid 20 50 1e-8 1 d
  let net_L_pre := fieldSum grid
  let grid2 : ScalarField := ⟨grid.size, fun i j k => grid.val i j k + 1e-8 * d.reset i j k⟩
  let grid3 := inflation_stretch grid2 4 3
  let net_L_post_infl := fieldSum grid3
  let grid4 := reheating_oscillations grid3 50 0.01 (0.2 * Real.pi) 1e-8 d.osc
  let net_L_post_reheat := fieldSum grid4
  let volume : ℝ := ((grid4.size : ℝ)) ^ 3
  let lambda_val := compute_lambda net_L_post_reheat volume
  let v_peak := compute_v_peak lambda_val
  ⟨net_L_pre, net_L_post_infl, net_L_post_reheat, lambda_val, v_peak,
    if net_L_post_reheat > 0 then "+" else "-"⟩

/-- Contribution that one sample point `s` of a segment deposits at cell
`(i, j, k)` in the source code: the kernel value when the cell is inside the
clamped loop ranges around the sample point and its distance to the full
segment is below `3 * sigma`, and zero otherwise. -/
def sampleContrib (size : ℕ) (σ : ℝ) (x1 x2 : Vec3) (chi : ℝ) (s i j k : ℕ) : ℝ :=
  if inNbhd size σ (segCenter x1 x2 s) i j k ∧
      point_to_line_dist ⟨(i : ℝ), (j : ℝ), (k : ℝ)⟩ x1 x2 < 3 * σ then
    chi * Real.exp (-point_to_line_dist ⟨(i : ℝ), (j : ℝ), (k : ℝ)⟩ x1 x2 ^ 2 / (2 * σ ^ 2))
  else 0

/-- Per-sample contribution as claim C1 words it: no distance cutoff. -/
def sampleContribSpec (size : ℕ) (σ : ℝ) (x1 x2 : Vec3) (chi : ℝ) (s i j k : ℕ) : ℝ :=
  if inNbhd size σ (segCenter x1 x2 s) i j k then
    chi * Real.exp (-point_to_line_dist ⟨(i : ℝ), (j : ℝ), (k : ℝ)⟩ x1 x2 ^ 2 / (2 * σ ^ 2))
  else 0

/-- Reference-and-heap model of NumPy array identity, for the in-place
mutation claim: the heap maps array ids to their current contents and records
the next fresh id. -/
structure Heap where
  arrays : ℕ → ScalarField
  next : ℕ

/-- State-level view of `inflation_stretch`: the function allocates
`new_grid = np.zeros(...)` (a fresh array), fills it, and returns it; the
argument array `r` is read but never written. -/
def inflation_stretch_st (r : ℕ) (h : Heap) (stretch_factor dilution_power : ℕ) :
    ℕ × Heap :=
  (h.next,
    ⟨Function.update h.arrays h.next
        (inflation_stretch (h.arrays r) stretch_factor dilution_power),
      h.next + 1⟩)

/-- State-level view of `reheating_oscillations`: the updates `grid *= amp`
and `grid += inj` are NumPy in-place augmented assignments on the argument
array `r`, and the same array is returned. -/
def reheating_oscillations_st (r : ℕ) (h : Heap) (num_steps : ℕ) (ε ω delta_chi : ℝ)
    (noise : ℕ → ℕ → ℕ → ℕ → ℝ) : ℕ × Heap :=
  (r,
    ⟨Function.update h.arrays r
        (reheating_oscillations (h.arrays r) num_steps ε ω delta_chi noise),
      h.next⟩)

/-- Concrete 1 x 1 x 1 field with value 1, used by concrete witnesses. -/
def exGrid : ScalarField := ⟨1, fun _ _ _ => 1⟩

/-- Concrete one-array heap used to test the in-place mutation claim: the
single array `exGrid` stored at id 0, next fresh id 1. -/
def exHeap : Heap := ⟨fun _ => exGrid, 1⟩

/-- Concrete segment endpoints used to test the rasterization claim. -/
def exA : Vec3 := ⟨0, 0, 0⟩

/-- Second endpoint: (3.6, 0, 0), inside the size-4 cube. -/
def exB : Vec3 := ⟨18 / 5, 0, 0⟩

/-- Concrete draw bundle with all draws zero. -/
def exDraws : Draws :=
  ⟨fun _ => ⟨0, 0, 0⟩, fun _ => ⟨0, 0, 0⟩, fun _ => 0, fun _ _ _ => 0, fun _ _ _ _ => 0⟩

/-! Helper lemmas. -/

lemma foldl_add_contrib (step : (ℕ → ℕ → ℕ → ℝ) → ℕ → (ℕ → ℕ → ℕ → ℝ))
    (F : ℕ → ℕ → ℕ → ℕ → ℝ)
    (hstep : ∀ g s i j k, step g s i j k = g i j k + F s i j k) :
    ∀ (n : ℕ) (g : ℕ → ℕ → ℕ → ℝ) (i j k : ℕ),
      ((List.range n).foldl step g) i j k = g i j k + ∑ s in Finset.range n, F s i j k := by
  intro n
  induction n with
  | zero => intro g i j k; simp
  | succ n ih =>
    intro g i j k
    rw [List.range_succ, List.foldl_append, List.foldl_cons, List.foldl_nil, hstep, ih,
      Finset.sum_range_succ]
    ring

lemma rasterizeSegment_eq_sum (size : ℕ) (σ : ℝ) (x1 x2 : Vec3) (chi : ℝ)
    (g : ℕ → ℕ → ℕ → ℝ) (i j k : ℕ) :
    rasterizeSegment size σ x1 x2 chi g i j k
      = g i j k + ∑ s in Finset.range 10, sampleContrib size σ x1 x2 chi s i j k := by
  refine foldl_add_contrib _ (fun s i j k => sampleContrib size σ x1 x2 chi s i j k)
    ?_ 10 g i j k
  intro g s i j k
  unfold addSample sampleContrib
  by_cases h : inNbhd size σ (segCenter x1 x2 s) i j k ∧
      point_to_line_dist ⟨(i : ℝ), (j : ℝ), (k : ℝ)⟩ x1 x2 < 3 * σ
  · simp [h]
  · simp [h]

lemma rasterizeSegmentSpec_eq_sum (size : ℕ) (σ : ℝ) (x1 x2 : Vec3) (chi : ℝ)
    (g : ℕ → ℕ → ℕ → ℝ) (i j k : ℕ) :
    rasterizeSegmentSpec size σ x1 x2 chi g i j k
      = g i j k + ∑ s in Finset.range 10, sampleContribSpec size σ x1 x2 chi s i j k := by
  refine foldl_add_contrib _ (fun s i j k => sampleContribSpec size σ x1 x2 chi s i j k)
    ?_ 10 g i j k
  intro g s i j k
  unfold addSampleSpec sampleContribSpec
  by_cases h : inNbhd size σ (segCenter x1 x2 s) i j k
  · simp [h]
  · simp [h]

lemma generate_vorticity_grid_val (size num_strings : ℕ) (delta_chi σ : ℝ) (d : Draws)
    (i j k : ℕ) :
    (generate_vorticity_grid size num_strings delta_chi σ d).val i j k
      = ∑ n in Finset.range num_strings, ∑ s in Finset.range 10,
          sampleContrib size σ (d.x1 n) (d.x2 n) (chiDraw d delta_chi n) s i j k := by
  have h := foldl_add_contrib
    (fun g n => rasterizeSegment size σ (d.x1 n) (d.x2 n) (chiDraw d delta_chi n) g)
    (fun n i j k => ∑ s in Finset.range 10,
      sampleContrib size σ (d.x1 n) (d.x2 n) (chiDraw d delta_chi n) s i j k)
    (fun g n i j k => rasterizeSegment_eq_sum size σ (d.x1 n) (d.x2 n) _ g i j k)
    num_strings (fun _ _ _ => 0) i j k
  simpa [generate_vorticity_grid] using h

lemma sampleContrib_eq_zero_of_out (size : ℕ) (σ : ℝ) (x1 x2 : Vec3) (chi : ℝ)
    (s i j k : ℕ) (h : size ≤ i ∨ size ≤ j ∨ size ≤ k) :
    sampleContrib size σ x1 x2 chi s i j k = 0 := by
  unfold sampleContrib
  rw [if_neg]
  rintro ⟨⟨hi, hj, hk⟩, -⟩
  unfold inRange nbhdHi at hi hj hk
  rcases h with h | h | h
  · have h2 : (i : ℤ) < (size : ℤ) := lt_of_lt_of_le hi.2 (min_le_left _ _)
    omega
  · have h2 : (j : ℤ) < (size : ℤ) := lt_of_lt_of_le hj.2 (min_le_left _ _)
    omega
  · have h2 : (k : ℤ) < (size : ℤ) := lt_of_lt_of_le hk.2 (min_le_left _ _)
    omega

lemma clip01_of_nonpos {t : ℝ} (h : t ≤ 0) : clip01 t = 0 := by
  unfold clip01
  rw [max_eq_right h, min_eq_left (by norm_num : (0 : ℝ) ≤ 1)]

lemma clip01_of_ge_one {t : ℝ} (h : 1 ≤ t) : clip01 t = 1 := by
  unfold clip01
  rw [max_eq_left (le_trans zero_le_one h), min_eq_right h]

lemma clip01_of_mem {t : ℝ} (h0 : 0 ≤ t) (h1 : t ≤ 1) : clip01 t = t := by
  unfold clip01
  rw [max_eq_left h0, min_eq_left h1]

lemma clip01_nonneg (t : ℝ) : 0 ≤ clip01 t :=
  le_min (le_max_right t 0) zero_le_one

lemma clip01_le_one (t : ℝ) : clip01 t ≤ 1 := min_le_right _ _

lemma dot3_self_nonneg (v : Vec3) : 0 ≤ dot3 v v := by
  unfold dot3
  nlinarith [mul_self_nonneg v.x, mul_self_nonneg v.y, mul_self_nonneg v.z]

lemma dot3_sub_self_ne_zero {a b : Vec3} (h : a ≠ b) : dot3 (b - a) (b - a) ≠ 0 := by
  intro h0
  unfold dot3 at h0
  simp only [Vec3.sub_def] at h0
  have hx : (b.x - a.x) * (b.x - a.x) = 0 := by
    nlinarith [mul_self_nonneg (b.y - a.y), mul_self_nonneg (b.z - a.z),
      mul_self_nonneg (b.x - a.x)]
  have hy : (b.y - a.y) * (b.y - a.y) = 0 := by
    nlinarith [mul_self_nonneg (b.x - a.x), mul_self_nonneg (b.z - a.z)]
  have hz : (b.z - a.z) * (b.z - a.z) = 0 := by
    nlinarith [mul_self_nonneg (b.x - a.x), mul_self_nonneg (b.y - a.y)]
  apply h
  have hx2 := mul_self_eq_zero.mp hx
  have hy2 := mul_self_eq_zero.mp hy
  have hz2 := mul_self_eq_zero.mp hz
  cases a with
  | mk ax ay az =>
    cases b with
    | mk bx by2 bz =>
      simp only [Vec3.mk.injEq]
      constructor
      · linarith [hx2]
      constructor
      · linarith [hy2]
      · linarith [hz2]

lemma dot3_param (p a b : Vec3) (s : ℝ) :
    dot3 (p - (a + s • (b - a))) (p - (a + s • (b - a)))
      = dot3 (p - a) (p - a) - 2 * s * dot3 (p - a) (b - a)
          + s ^ 2 * dot3 (b - a) (b - a) := by
  simp only [dot3, Vec3.sub_def, Vec3.add_def, Vec3.smul_def]
  ring

lemma vnorm_smul (c : ℝ) (v : Vec3) : vnorm (c • v) = |c| * vnorm v := by
  unfold vnorm
  have h : dot3 (c • v) (c • v) = c ^ 2 * dot3 v v := by
    simp only [dot3, Vec3.smul_def]
    ring
  rw [h, Real.sqrt_mul (sq_nonneg c), Real.sqrt_sq_eq_abs]

lemma itrunc_intCast (n : ℤ) : itrunc (n : ℝ) = n := by
  unfold itrunc
  split
  · exact Int.floor_intCast n
  · exact Int.ceil_intCast n

lemma stretch_index (N k i : ℕ) (hN : 0 < N) :
    (itrunc ((i : ℝ) / (((N * k : ℕ) : ℝ) / (N : ℝ)))).toNat = i / k := by
  have hN0 : (N : ℝ) ≠ 0 := Nat.cast_ne_zero.mpr hN.ne'
  have hscale : ((N * k : ℕ) : ℝ) / (N : ℝ) = (k : ℝ) := by
    push_cast
    rw [mul_comm, mul_div_assoc, div_self hN0, mul_one]
  rw [hscale]
  have h0 : (0 : ℝ) ≤ (i : ℝ) / (k : ℝ) := by positivity
  unfold itrunc
  rw [if_pos h0, Int.floor_toNat, Nat.floor_div_nat, Nat.floor_natCast]

lemma sum_range_mul_div (k : ℕ) (N : ℕ) (f : ℕ → ℝ) :
    ∑ i in Finset.range (N * k), f (i / k) = (k : ℝ) * ∑ i in Finset.range N, f i := by
  induction N with
  | zero => simp
  | succ N ih =>
    have hmul : (N + 1) * k = N * k + k := by ring
    rw [hmul, Finset.range_eq_Ico,
      ← Finset.sum_Ico_consecutive _ (Nat.zero_le (N * k)) (Nat.le_add_right (N * k) k),
      ← Finset.range_eq_Ico, ih]
    have h2 : ∀ i ∈ Finset.Ico (N * k) (N * k + k), f (i / k) = f N := by
      intro i hi
      rw [Finset.mem_Ico] at hi
      have hdiv : i / k = N := Nat.div_eq_of_lt_le (by omega) (by rw [add_mul, one_mul]; omega)
      rw [hdiv]
    rw [Finset.sum_congr rfl h2, Finset.sum_const, Nat.card_Ico]
    have h3 : N * k + k - N * k = k := by omega
    rw [h3, nsmul_eq_mul, Finset.sum_range_succ]
    ring

lemma point_to_line_dist_eq (p a b : Vec3) :
    point_to_line_dist p a b
      = vnorm (p - (a + clip01 (dot3 (p - a) (b - a) / dot3 (b - a) (b - a)) • (b - a))) :=
  rfl

lemma point_to_line_dist_min (p a b : Vec3) (hab : dot3 (b - a) (b - a) ≠ 0) (s : ℝ)
    (hs0 : 0 ≤ s) (hs1 : s ≤ 1) :
    point_to_line_dist p a b ≤ vnorm (p - (a + s • (b - a))) := by
  rw [point_to_line_dist_eq]
  unfold vnorm
  apply Real.sqrt_le_sqrt
  have hDpos : 0 < dot3 (b - a) (b - a) :=
    lt_of_le_of_ne (dot3_self_nonneg _) (Ne.symm hab)
  rw [dot3_param, dot3_param]
  set D := dot3 (b - a) (b - a) with hD
  set w := dot3 (p - a) (b - a) with hw
  have hwc : w / D * D = w := div_mul_cancel₀ w hab
  rcases le_or_lt (w / D) 0 with h | h
  · rw [clip01_of_nonpos h]
    have hw0 : w ≤ 0 := by nlinarith
    nlinarith [mul_nonneg hs0 (neg_nonneg.mpr hw0), mul_nonneg (mul_nonneg hs0 hs0) hDpos.le]
  · rcases le_or_lt 1 (w / D) with h1 | h1
    · rw [clip01_of_ge_one h1]
      have hDw : D ≤ w := by nlinarith
      nlinarith [mul_nonneg (sub_nonneg.mpr hs1) (sub_nonneg.mpr hDw),
        mul_nonneg (sub_nonneg.mpr hs1) (mul_nonneg (sub_nonneg.mpr hs1) hDpos.le)]
    · rw [clip01_of_mem h.le h1.le]
      nlinarith [mul_nonneg (sq_nonneg (s - w / D)) hDpos.le]

lemma point_to_line_dist_attained (p a b : Vec3) :
    ∃ s : ℝ, 0 ≤ s ∧ s ≤ 1 ∧ point_to_line_dist p a b = vnorm (p - (a + s • (b - a))) :=
  ⟨clip01 (dot3 (p - a) (b - a) / dot3 (b - a) (b - a)), clip01_nonneg _, clip01_le_one _, rfl⟩

lemma point_to_line_dist_self (a b : Vec3) : point_to_line_dist a a b = 0 := by
  have h0 : dot3 (a - a) (b - a) = 0 := by
    simp only [dot3, Vec3.sub_def]
    ring
  rw [point_to_line_dist_eq, h0, zero_div, clip01_of_mem le_rfl zero_le_one]
  have h1 : a - (a + (0 : ℝ) • (b - a)) = (⟨0, 0, 0⟩ : Vec3) := by
    simp only [Vec3.sub_def, Vec3.add_def, Vec3.smul_def, Vec3.mk.injEq]
    refine ⟨by ring, by ring, by ring⟩
  rw [h1]
  unfold vnorm dot3
  simp [Real.sqrt_eq_zero']

lemma point_to_line_dist_line_left (p a b : Vec3) (hab : dot3 (b - a) (b - a) ≠ 0)
    (s : ℝ) (hs : s ≤ 0) (hp : p = a + s • (b - a)) :
    point_to_line_dist p a b = vnorm (p - a) ∧ vnorm (p - a) ≤ vnorm (p - b) := by
  have hw : dot3 (p - a) (b - a) = s * dot3 (b - a) (b - a) := by
    rw [hp]
    simp only [dot3, Vec3.sub_def, Vec3.add_def, Vec3.smul_def]
    ring
  have h1 : p - a = s • (b - a) := by
    rw [hp]
    simp only [Vec3.sub_def, Vec3.add_def, Vec3.smul_def, Vec3.mk.injEq]
    refine ⟨by ring, by ring, by ring⟩
  have h2 : p - b = (s - 1) • (b - a) := by
    rw [hp]
    simp only [Vec3.sub_def, Vec3.add_def, Vec3.smul_def, Vec3.mk.injEq]
    refine ⟨by ring, by ring, by ring⟩
  constructor
  · rw [point_to_line_dist_eq, hw, mul_div_assoc, div_self hab, mul_one,
      clip01_of_nonpos hs]
    have hcl : p - (a + (0 : ℝ) • (b - a)) = p - a := by
      simp only [Vec3.sub_def, Vec3.add_def, Vec3.smul_def, Vec3.mk.injEq]
      refine ⟨by ring, by ring, by ring⟩
    rw [hcl]
  · rw [h1, h2, vnorm_smul, vnorm_smul]
    apply mul_le_mul_of_nonneg_right _ (Real.sqrt_nonneg _)
    rw [abs_of_nonpos hs, abs_of_nonpos (by linarith : s - 1 ≤ 0)]
    linarith

lemma point_to_line_dist_line_right (p a b : Vec3) (hab : dot3 (b - a) (b - a) ≠ 0)
    (s : ℝ) (hs : 1 ≤ s) (hp : p = a + s • (b - a)) :
    point_to_line_dist p a b = vnorm (p - b) ∧ vnorm (p - b) ≤ vnorm (p - a) := by
  have hw : dot3 (p - a) (b - a) = s * dot3 (b - a) (b - a) := by
    rw [hp]
    simp only [dot3, Vec3.sub_def, Vec3.add_def, Vec3.smul_def]
    ring
  have h1 : p - a = s • (b - a) := by
    rw [hp]
    simp only [Vec3.sub_def, Vec3.add_def, Vec3.smul_def, Vec3.mk.injEq]
    refine ⟨by ring, by ring, by ring⟩
  have h2 : p - b = (s - 1) • (b - a) := by
    rw [hp]
    simp only [Vec3.sub_def, Vec3.add_def, Vec3.smul_def, Vec3.mk.injEq]
    refine ⟨by ring, by ring, by ring⟩
  constructor
  · rw [point_to_line_dist_eq, hw, mul_div_assoc, div_self hab, mul_one,
      clip01_of_ge_one hs]
    have hcl : p - (a + (1 : ℝ) • (b - a)) = p - b := by
      simp only [Vec3.sub_def, Vec3.add_def, Vec3.smul_def, Vec3.mk.injEq]
      refine ⟨by ring, by ring, by ring⟩
    rw [hcl]
  · rw [h1, h2, vnorm_smul, vnorm_smul]
    apply mul_le_mul_of_nonneg_right _ (Real.sqrt_nonneg _)
    rw [abs_of_nonneg (by linarith : (0 : ℝ) ≤ s - 1), abs_of_nonneg (by linarith : (0 : ℝ) ≤ s)]
    linarith

lemma sqrt18_ge_three : (3 : ℝ) ≤ Real.sqrt 18 := by
  rw [show (3 : ℝ) = Real.sqrt 9 by
    rw [show (9 : ℝ) = 3 ^ 2 by norm_num, Real.sqrt_sq (by norm_num : (0 : ℝ) ≤ 3)]]
  exact Real.sqrt_le_sqrt (by norm_num)

lemma dist_ex : point_to_line_dist ⟨3, 3, 3⟩ exA exB = Real.sqrt 18 := by
  rw [point_to_line_dist_eq]
  have h1 : dot3 ((⟨3, 3, 3⟩ : Vec3) - exA) (exB - exA) / dot3 (exB - exA) (exB - exA)
      = 5 / 6 := by
    simp only [exA, exB, dot3, Vec3.sub_def]
    norm_num
  rw [h1, clip01_of_mem (by norm_num) (by norm_num)]
  have h2 : (⟨3, 3, 3⟩ : Vec3) - (exA + (5 / 6 : ℝ) • (exB - exA)) = ⟨0, 3, 3⟩ := by
    simp only [exA, exB, Vec3.sub_def, Vec3.add_def, Vec3.smul_def, Vec3.mk.injEq]
    norm_num
  rw [h2]
  unfold vnorm dot3
  norm_num

lemma segCenter_ex0 : segCenter exA exB 0 = (⟨0, 0, 0⟩ : Vec3) := by
  simp only [segCenter, sampleT, exA, exB, Vec3.add_def, Vec3.smul_def, Vec3.sub_def,
    Vec3.mk.injEq]
  norm_num

lemma inNbhd_ex0 : inNbhd 4 1 (⟨0, 0, 0⟩ : Vec3) 3 3 3 := by
  have hlo : nbhdLo 0 1 = 0 := by
    unfold nbhdLo
    rw [show ((0 : ℝ) - 3 * 1) = ((-3 : ℤ) : ℝ) by norm_num, itrunc_intCast]
    decide
  have hhi : nbhdHi 4 0 1 = 4 := by
    unfold nbhdHi
    rw [show ((0 : ℝ) + 3 * 1 + 1) = ((4 : ℤ) : ℝ) by norm_num, itrunc_intCast]
    decide
  unfold inNbhd
  dsimp only
  refine ⟨⟨?_, ?_⟩, ⟨?_, ?_⟩, ⟨?_, ?_⟩⟩ <;>
    first
    | (rw [hlo]; norm_num)
    | (rw [hhi]; norm_num)

lemma rasterize_ex_code_zero :
    rasterizeSegment 4 1 exA exB 1 (fun _ _ _ => 0) 3 3 3 = 0 := by
  rw [rasterizeSegment_eq_sum]
  have hz : ∀ s ∈ Finset.range 10, sampleContrib 4 1 exA exB 1 s 3 3 3 = 0 := by
    intro s _
    unfold sampleContrib
    rw [if_neg]
    rintro ⟨-, hlt⟩
    have hc : (⟨((3 : ℕ) : ℝ), ((3 : ℕ) : ℝ), ((3 : ℕ) : ℝ)⟩ : Vec3) = ⟨3, 3, 3⟩ := by
      norm_num
    rw [hc, dist_ex] at hlt
    have h18 := sqrt18_ge_three
    linarith
  rw [Finset.sum_eq_zero hz, add_zero]

lemma rasterize_ex_spec_pos :
    0 < rasterizeSegmentSpec 4 1 exA exB 1 (fun _ _ _ => 0) 3 3 3 := by
  rw [rasterizeSegmentSpec_eq_sum, zero_add]
  apply Finset.sum_pos'
  · intro s _
    unfold sampleContribSpec
    split
    · positivity
    · exact le_rfl
  · refine ⟨0, Finset.mem_range.mpr (by norm_num), ?_⟩
    have hc : (⟨((3 : ℕ) : ℝ), ((3 : ℕ) : ℝ), ((3 : ℕ) : ℝ)⟩ : Vec3) = ⟨3, 3, 3⟩ := by
      norm_num
    have hcond : inNbhd 4 1 (segCenter exA exB 0) 3 3 3 := by
      rw [segCenter_ex0]
      exact inNbhd_ex0
    unfold sampleContribSpec
    rw [if_pos hcond]
    positivity

lemma reheating_oscillations_succ (grid : ScalarField) (M : ℕ) (ε ω delta_chi : ℝ)
    (noise : ℕ → ℕ → ℕ → ℕ → ℝ) :
    reheating_oscillations grid (M + 1) ε ω delta_chi noise
      = reheat_step ε ω delta_chi noise M
          (reheating_oscillations grid M ε ω delta_chi noise) := by
  unfold reheating_oscillations
  rw [List.range_succ, List.foldl_append, List.foldl_cons, List.foldl_nil]

lemma reheating_oscillations_size (grid : ScalarField) (M : ℕ) (ε ω delta_chi : ℝ)
    (noise : ℕ → ℕ → ℕ → ℕ → ℝ) :
    (reheating_oscillations grid M ε ω delta_chi noise).size = grid.size := by
  induction M with
  | zero => rfl
  | succ M ih =>
    rw [reheating_oscillations_succ]
    exact ih

lemma inflation_stretch_val (grid : ScalarField) (k p : ℕ) (hN : 0 < grid.size)
    (i j l : ℕ) :
    (inflation_stretch grid k p).val i j l
      = grid.val (i / k) (j / k) (l / k) * (1 / (k : ℝ) ^ p) := by
  show grid.val (itrunc ((i : ℝ) / (((grid.size * k : ℕ) : ℝ) / (grid.size : ℝ)))).toNat
      (itrunc ((j : ℝ) / (((grid.size * k : ℕ) : ℝ) / (grid.size : ℝ)))).toNat
      (itrunc ((l : ℝ) / (((grid.size * k : ℕ) : ℝ) / (grid.size : ℝ)))).toNat
      * (1 / (k : ℝ) ^ p) = _
  rw [stretch_index _ _ _ hN, stretch_index _ _ _ hN, stretch_index _ _ _ hN]

/-! Claim theorems. -/

/-- C1 (amended): in the Foam Generator, for every segment with chirality chi
and every cell, the rasterization adds the kernel value
`chi * exp(-d^2 / (2 sigma^2))` — with `d` the point-to-segment distance from
the cell to the full segment — once for every sample point whose clamped
cubic loop neighborhood contains the cell AND whose cell-to-segment distance
satisfies `d < 3 sigma` (the cutoff the source applies and the claim omits);
contributions of samples and segments accumulate additively, and cells with
an index outside `[0, N)` receive nothing. -/
theorem foam_rasterization_characterization
    (size num_strings : ℕ) (delta_chi σ : ℝ) (d : Draws) (x1 x2 : Vec3) (chi : ℝ)
    (g : ℕ → ℕ → ℕ → ℝ) (i j k : ℕ) :
    (rasterizeSegment size σ x1 x2 chi g i j k
        = g i j k + ∑ s in Finset.range 10, sampleContrib size σ x1 x2 chi s i j k)
    ∧ (∀ s : ℕ, size ≤ i ∨ size ≤ j ∨ size ≤ k →
        sampleContrib size σ x1 x2 chi s i j k = 0)
    ∧ ((generate_vorticity_grid size num_strings delta_chi σ d).val i j k
        = ∑ n in Finset.range num_strings, ∑ s in Finset.range 10,
            sampleContrib size σ (d.x1 n) (d.x2 n) (chiDraw d delta_chi n) s i j k) :=
  ⟨rasterizeSegment_eq_sum size σ x1 x2 chi g i j k,
    fun s h => sampleContrib_eq_zero_of_out size σ x1 x2 chi s i j k h,
    generate_vorticity_grid_val size num_strings delta_chi σ d i j k⟩

/-- Witness for C1 at a concrete input: a cell with an out-of-lattice index
receives no contribution. -/
theorem foam_rasterization_characterization_witness :
    sampleContrib 4 1 exA exB 1 0 5 0 0 = 0 :=
  (foam_rasterization_characterization 4 0 0 1 exDraws exA exB 1 (fun _ _ _ => 0)
    5 0 0).2.1 0 (Or.inl (by norm_num))

/-- C1 counterexample: for the segment from (0,0,0) to (3.6,0,0) with
chirality +1, sigma 1, size 4, the cell (3,3,3) lies in the cubic loop
neighborhood of the first sample point but has distance sqrt 18 >= 3 sigma to
the segment, so the code adds nothing there while the claimed rule adds the
(positive) kernel value: the two rasterizations differ. -/
theorem foam_rasterization_claim_counterexample :
    rasterizeSegmentSpec 4 1 exA exB 1 (fun _ _ _ => 0) 3 3 3
      ≠ rasterizeSegment 4 1 exA exB 1 (fun _ _ _ => 0) 3 3 3 := by
  rw [rasterize_ex_code_zero]
  exact ne_of_gt rasterize_ex_spec_pos

/-- C2: the Stretch Transform returns a field of side exactly N * k in which
each output cell (i,j,l) equals the source cell at (i/k, j/k, l/k) (floor
division) times the global dilution factor 1 / k^p, and for k = 1 the output
equals the input cell for cell. -/
theorem inflation_stretch_spec (grid : ScalarField) (k p : ℕ) (hk : 0 < k) :
    (inflation_stretch grid k p).size = grid.size * k
    ∧ (∀ i j l : ℕ, i < grid.size * k → j < grid.size * k → l < grid.size * k →
        (inflation_stretch grid k p).val i j l
          = grid.val (i / k) (j / k) (l / k) * (1 / (k : ℝ) ^ p))
    ∧ (∀ i j l : ℕ, i < grid.size → j < grid.size → l < grid.size →
        (inflation_stretch grid 1 p).val i j l = grid.val i j l) := by
  refine ⟨rfl, ?_, ?_⟩
  · intro i j l hi _ _
    have hN : 0 < grid.size := by
      rcases Nat.eq_zero_or_pos grid.size with h0 | h0
      · rw [h0, zero_mul] at hi
        exact absurd hi (Nat.not_lt_zero i)
      · exact h0
    exact inflation_stretch_val grid k p hN i j l
  · intro i j l hi _ _
    have hN : 0 < grid.size := lt_of_le_of_lt (Nat.zero_le i) hi
    rw [inflation_stretch_val grid 1 p hN i j l]
    norm_num

/-- Witness for C2 at a concrete input: stretching the 1-cube of value 1 by
factor 2 with power 3 gives side 2 and cell value 1 * (1/8). -/
theorem inflation_stretch_spec_witness :
    (inflation_stretch exGrid 2 3).size = 2
    ∧ (inflation_stretch exGrid 2 3).val 1 1 1 = 1 * (1 / (2 : ℝ) ^ 3) := by
  have h := inflation_stretch_spec exGrid 2 3 (by norm_num)
  refine ⟨h.1, ?_⟩
  rw [h.2.1 1 1 1 (by norm_num [exGrid]) (by norm_num [exGrid]) (by norm_num [exGrid])]
  norm_num [exGrid]

/-- C3: the sum of all cells of the stretched field equals
(1/k^p) * k^3 * the sum of all cells of the input field. -/
theorem dilution_conservation (grid : ScalarField) (k p : ℕ) (hk : 0 < k) :
    fieldSum (inflation_stretch grid k p)
      = 1 / (k : ℝ) ^ p * (k : ℝ) ^ 3 * fieldSum grid := by
  rcases Nat.eq_zero_or_pos grid.size with h0 | hN
  · unfold fieldSum
    rw [show (inflation_stretch grid k p).size = grid.size * k from rfl, h0]
    simp
  · unfold fieldSum
    rw [show (inflation_stretch grid k p).size = grid.size * k from rfl]
    have hval : ∀ i j l : ℕ, (inflation_stretch grid k p).val i j l
        = grid.val (i / k) (j / k) (l / k) * (1 / (k : ℝ) ^ p) :=
      inflation_stretch_val grid k p hN
    have hcong : ∑ i in Finset.range (grid.size * k), ∑ j in Finset.range (grid.size * k),
          ∑ l in Finset.range (grid.size * k), (inflation_stretch grid k p).val i j l
        = ∑ i in Finset.range (grid.size * k), ∑ j in Finset.range (grid.size * k),
          ∑ l in Finset.range (grid.size * k),
            grid.val (i / k) (j / k) (l / k) * (1 / (k : ℝ) ^ p) :=
      Finset.sum_congr rfl fun i _ => Finset.sum_congr rfl fun j _ =>
        Finset.sum_congr rfl fun l _ => hval i j l
    rw [hcong]
    have step1 : ∑ i in Finset.range (grid.size * k), ∑ j in Finset.range (grid.size * k),
          ∑ l in Finset.range (grid.size * k),
            grid.val (i / k) (j / k) (l / k) * (1 / (k : ℝ) ^ p)
        = (k : ℝ) * ∑ i in Finset.range grid.size, ∑ j in Finset.range (grid.size * k),
            ∑ l in Finset.range (grid.size * k),
              grid.val i (j / k) (l / k) * (1 / (k : ℝ) ^ p) :=
      sum_range_mul_div k grid.size
        (fun a => ∑ j in Finset.range (grid.size * k), ∑ l in Finset.range (grid.size * k),
          grid.val a (j / k) (l / k) * (1 / (k : ℝ) ^ p))
    have step2 : ∀ a : ℕ, ∑ j in Finset.range (grid.size * k),
          ∑ l in Finset.range (grid.size * k), grid.val a (j / k) (l / k) * (1 / (k : ℝ) ^ p)
        = (k : ℝ) * ∑ j in Finset.range grid.size, ∑ l in Finset.range (grid.size * k),
            grid.val a j (l / k) * (1 / (k : ℝ) ^ p) :=
      fun a => sum_range_mul_div k grid.size
        (fun b => ∑ l in Finset.range (grid.size * k),
          grid.val a b (l / k) * (1 / (k : ℝ) ^ p))
    have step3 : ∀ a b : ℕ, ∑ l in Finset.range (grid.size * k),
          grid.val a b (l / k) * (1 / (k : ℝ) ^ p)
        = (k : ℝ) * ∑ l in Finset.range grid.size, grid.val a b l * (1 / (k : ℝ) ^ p) :=
      fun a b => sum_range_mul_div k grid.size
        (fun c => grid.val a b c * (1 / (k : ℝ) ^ p))
    rw [step1, Finset.sum_congr rfl fun a _ => step2 a]
    rw [Finset.sum_congr rfl fun a _ => congrArg (fun z => (k : ℝ) * z)
      (Finset.sum_congr rfl fun b _ => step3 a b)]
    simp only [Finset.mul_sum, Finset.sum_mul]
    refine Finset.sum_congr rfl fun a _ => Finset.sum_congr rfl fun b _ =>
      Finset.sum_congr rfl fun c _ => ?_
    ring

/-- Witness for C3 at a concrete input: the stretched 1-cube of value 1 sums
to (1/8) * 8 * 1. -/
theorem dilution_conservation_witness :
    fieldSum (inflation_stretch exGrid 2 3)
      = 1 / (2 : ℝ) ^ 3 * (2 : ℝ) ^ 3 * fieldSum exGrid :=
  dilution_conservation exGrid 2 3 (by norm_num)

/-- C4: the Oscillation Transform performs exactly M sequential updates: the
size never changes, M = 0 returns the field unchanged, and the field after
M + 1 steps is the field after M steps multiplied by
`1 + epsilon * cos(omega * (M * 0.1))` and then incremented by the injection
`delta_chi * sin(omega * (M * 0.1)) * noise` — multiply before add, with the
time variable advancing as t = s * 0.1 over steps s = 0, ..., M. -/
theorem reheating_oscillations_spec (grid : ScalarField) (ε ω delta_chi : ℝ)
    (noise : ℕ → ℕ → ℕ → ℕ → ℝ) :
    reheating_oscillations grid 0 ε ω delta_chi noise = grid
    ∧ (∀ M : ℕ, (reheating_oscillations grid M ε ω delta_chi noise).size = grid.size)
    ∧ (∀ M i j k : ℕ,
        (reheating_oscillations grid (M + 1) ε ω delta_chi noise).val i j k
          = (reheating_oscillations grid M ε ω delta_chi noise).val i j k
              * (1 + ε * Real.cos (ω * ((M : ℝ) * 0.1)))
            + delta_chi * Real.sin (ω * ((M : ℝ) * 0.1)) * noise M i j k) := by
  refine ⟨rfl, fun M => reheating_oscillations_size grid M ε ω delta_chi noise, ?_⟩
  intro M i j k
  rw [reheating_oscillations_succ]
  rfl

/-- C5: the Cycle Reducer computes lambda = 0.04 * (|L| / V)^(1/3) and
v = 220 * (lambda / 0.04); lambda is non-negative, monotone non-decreasing
in |L| for fixed positive V, v is affine in lambda with v(0.04) = 220, and
the helicity label of the cycle record is "+" exactly when the reduced
aggregate is positive, "-" otherwise. -/
theorem cycle_reducer_spec (L V : ℝ) (hV : 0 < V) :
    compute_lambda L V = 0.04 * (|L| / V) ^ ((1 : ℝ) / 3)
    ∧ 0 ≤ compute_lambda L V
    ∧ (∀ L1 L2 : ℝ, |L1| ≤ |L2| → compute_lambda L1 V ≤ compute_lambda L2 V)
    ∧ (∀ lamb : ℝ, compute_v_peak lamb = 220 * (lamb / 0.04))
    ∧ compute_v_peak 0.04 = 220
    ∧ (∀ d : Draws, (run_one_cycle d).helicity
        = if (run_one_cycle d).net_L_post_reheat > 0 then "+" else "-") := by
  refine ⟨mul_comm _ _, ?_, ?_, fun _ => rfl, by norm_num [compute_v_peak], fun d => rfl⟩
  · exact mul_nonneg (Real.rpow_nonneg (div_nonneg (abs_nonneg L) hV.le) _) (by norm_num)
  · intro L1 L2 h
    unfold compute_lambda
    apply mul_le_mul_of_nonneg_right _ (by norm_num : (0 : ℝ) ≤ 0.04)
    exact Real.rpow_le_rpow (div_nonneg (abs_nonneg L1) hV.le)
      ((div_le_div_iff_of_pos_right hV).mpr h) (by norm_num)

/-- Witness for C5 at concrete inputs L = 1, V = 1 and L1 = 1, L2 = 2. -/
theorem cycle_reducer_spec_witness :
    compute_lambda 1 1 = 0.04 * (|(1 : ℝ)| / 1) ^ ((1 : ℝ) / 3)
    ∧ 0 ≤ compute_lambda 1 1
    ∧ compute_lambda 1 1 ≤ compute_lambda 2 1
    ∧ compute_v_peak 0.04 = 220 := by
  have h := cycle_reducer_spec 1 1 (by norm_num)
  exact ⟨h.1, h.2.1, h.2.2.1 1 2 (by norm_num), h.2.2.2.2.1⟩

/-- C6: for a non-degenerate segment, `point_to_line_dist` computes the
distance by clamped projection, that value is the distance to the closest
point of the closed segment (it is attained at a parameter in [0,1] and is
minimal over all of them), it is 0 when the point equals endpoint A, and for
a point on the infinite line outside [A,B] it equals the distance to the
nearer endpoint. -/
theorem point_to_line_dist_spec (p a b : Vec3) (hab : a ≠ b) :
    point_to_line_dist p a b
        = vnorm (p - (a + clip01 (dot3 (p - a) (b - a) / dot3 (b - a) (b - a)) • (b - a)))
    ∧ (∀ s : ℝ, 0 ≤ s → s ≤ 1 →
        point_to_line_dist p a b ≤ vnorm (p - (a + s • (b - a))))
    ∧ (∃ s : ℝ, 0 ≤ s ∧ s ≤ 1
        ∧ point_to_line_dist p a b = vnorm (p - (a + s • (b - a))))
    ∧ point_to_line_dist a a b = 0
    ∧ (∀ s : ℝ, s ≤ 0 → p = a + s • (b - a) →
        point_to_line_dist p a b = vnorm (p - a) ∧ vnorm (p - a) ≤ vnorm (p - b))
    ∧ (∀ s : ℝ, 1 ≤ s → p = a + s • (b - a) →
        point_to_line_dist p a b = vnorm (p - b) ∧ vnorm (p - b) ≤ vnorm (p - a)) := by
  have hD := dot3_sub_self_ne_zero hab
  exact ⟨rfl, fun s h0 h1 => point_to_line_dist_min p a b hD s h0 h1,
    point_to_line_dist_attained p a b, point_to_line_dist_self a b,
    fun s hs hp => point_to_line_dist_line_left p a b hD s hs hp,
    fun s hs hp => point_to_line_dist_line_right p a b hD s hs hp⟩

/-- Witness for C6 at a concrete input: the point (2,0,0) on the line through
(0,0,0) and (1,0,0), beyond B, has distance |P - B| from the segment, and B
is the nearer endpoint. -/
theorem point_to_line_dist_spec_witness :
    point_to_line_dist ⟨2, 0, 0⟩ ⟨0, 0, 0⟩ ⟨1, 0, 0⟩
        = vnorm ((⟨2, 0, 0⟩ : Vec3) - ⟨1, 0, 0⟩)
    ∧ vnorm ((⟨2, 0, 0⟩ : Vec3) - ⟨1, 0, 0⟩) ≤ vnorm ((⟨2, 0, 0⟩ : Vec3) - ⟨0, 0, 0⟩) :=
  (point_to_line_dist_spec ⟨2, 0, 0⟩ ⟨0, 0, 0⟩ ⟨1, 0, 0⟩
      (fun h => absurd (congrArg Vec3.x h) (by norm_num))).2.2.2.2.2 2 (by norm_num)
    (by
      simp only [Vec3.add_def, Vec3.smul_def, Vec3.sub_def, Vec3.mk.injEq]
      norm_num)

/-- C7: the source does NOT guard the degenerate segment: with A = B the
division `dot(ap, ab) / dot(ab, ab)` has a zero denominator and the float
computation returns NaN (modelled as `none`), never `|P - A|`.  Evaluated at
the failing input P = (1,0,0), A = B = (0,0,0) and in general. -/
theorem point_to_line_dist_degenerate_nan :
    point_to_line_dist_f ⟨1, 0, 0⟩ ⟨0, 0, 0⟩ ⟨0, 0, 0⟩ = none
    ∧ (∀ p a : Vec3, point_to_line_dist_f p a a = none) := by
  have hgen : ∀ p a : Vec3, point_to_line_dist_f p a a = none := by
    intro p a
    unfold point_to_line_dist_f
    rw [if_pos]
    simp only [dot3, Vec3.sub_def, sub_self, mul_zero, zero_mul, add_zero]
  exact ⟨hgen ⟨1, 0, 0⟩ ⟨0, 0, 0⟩, hgen⟩

/-- C8: one full cycle is a deterministic function of the random draws alone:
two runs whose draw streams agree pointwise produce identical CycleResult
records. -/
theorem run_one_cycle_deterministic (d1 d2 : Draws)
    (hx1 : ∀ n, d1.x1 n = d2.x1 n) (hx2 : ∀ n, d1.x2 n = d2.x2 n)
    (hh : ∀ n, d1.handedness n = d2.handedness n)
    (hr : ∀ i j k, d1.reset i j k = d2.reset i j k)
    (ho : ∀ s i j k, d1.osc s i j k = d2.osc s i j k) :
    run_one_cycle d1 = run_one_cycle d2 := by
  have hd : d1 = d2 := by
    cases d1
    cases d2
    simp only [Draws.mk.injEq]
    refine ⟨funext hx1, funext hx2, funext hh, ?_, ?_⟩
    · funext i j k
      exact hr i j k
    · funext s i j k
      exact ho s i j k
  rw [hd]

/-- Witness for C8 at a concrete draw bundle. -/
theorem run_one_cycle_deterministic_witness :
    run_one_cycle exDraws = run_one_cycle exDraws :=
  run_one_cycle_deterministic exDraws exDraws (fun _ => rfl) (fun _ => rfl) (fun _ => rfl)
    (fun _ _ _ => rfl) (fun _ _ _ _ => rfl)

/-- C9 counterexample: `inflation_stretch` does not mutate its argument in
place.  On the concrete one-array heap, after the call the array passed in
(id 0) still holds the original 1 x 1 x 1 contents, not the transformed
2 x 2 x 2 field the claim promises there. -/
theorem inplace_mutation_counterexample :
    (inflation_stretch_st 0 exHeap 2 3).2.arrays 0
      ≠ inflation_stretch (exHeap.arrays 0) 2 3 := by
  have h1 : (inflation_stretch_st 0 exHeap 2 3).2.arrays 0 = exHeap.arrays 0 :=
    Function.update_noteq (by norm_num [exHeap] : (0 : ℕ) ≠ exHeap.next)
      (inflation_stretch (exHeap.arrays 0) 2 3) exHeap.arrays
  intro heq
  rw [h1] at heq
  have hsz := congrArg ScalarField.size heq
  have h2 : (exHeap.arrays 0).size = 1 := rfl
  have h3 : (inflation_stretch (exHeap.arrays 0) 2 3).size = 2 := rfl
  rw [h2, h3] at hsz
  exact absurd hsz (by norm_num)

/-- C9 (amended): `reheating_oscillations` mutates its argument array in
place (it writes the transformed values into the array it was passed and
returns that same array), while `inflation_stretch` allocates a fresh array,
returns it holding the transformed values, and leaves the argument array
untouched. -/
theorem transforms_aliasing_spec (r : ℕ) (h : Heap) (k p M : ℕ) (ε ω delta_chi : ℝ)
    (noise : ℕ → ℕ → ℕ → ℕ → ℝ) (hr : r < h.next) :
    (reheating_oscillations_st r h M ε ω delta_chi noise).1 = r
    ∧ (reheating_oscillations_st r h M ε ω delta_chi noise).2.arrays r
        = reheating_oscillations (h.arrays r) M ε ω delta_chi noise
    ∧ (inflation_stretch_st r h k p).1 = h.next
    ∧ (inflation_stretch_st r h k p).2.arrays h.next = inflation_stretch (h.arrays r) k p
    ∧ (inflation_stretch_st r h k p).2.arrays r = h.arrays r := by
  refine ⟨rfl, ?_, rfl, ?_, ?_⟩
  · show Function.update _ r _ r = _
    rw [Function.update_same]
  · show Function.update _ h.next _ h.next = _
    rw [Function.update_same]
  · show Function.update _ h.next _ r = _
    rw [Function.update_noteq (by omega : r ≠ h.next)]

/-- Witness for C9 (amended) on the concrete one-array heap. -/
theorem transforms_aliasing_spec_witness :
    (reheating_oscillations_st 0 exHeap 0 0 0 0 (fun _ _ _ _ => 0)).1 = 0
    ∧ (inflation_stretch_st 0 exHeap 2 3).2.arrays 0 = exHeap.arrays 0 := by
  have h := transforms_aliasing_spec 0 exHeap 2 3 0 0 0 0 (fun _ _ _ _ => 0)
    (by norm_num [exHeap])
  exact ⟨h.1, h.2.2.2.2⟩

/-- C10: at the first oscillation step t = 0, so the injection scale
sin(omega * 0) vanishes: one step multiplies the field by 1 + epsilon exactly
and the result does not depend on the random draws. -/
theorem reheating_first_step_deterministic (grid : ScalarField) (ε ω delta_chi : ℝ)
    (noise : ℕ → ℕ → ℕ → ℕ → ℝ) :
    reheating_oscillations grid 1 ε ω delta_chi noise
        = ⟨grid.size, fun i j k => grid.val i j k * (1 + ε)⟩
    ∧ (∀ n1 n2 : ℕ → ℕ → ℕ → ℕ → ℝ,
        reheating_oscillations grid 1 ε ω delta_chi n1
          = reheating_oscillations grid 1 ε ω delta_chi n2) := by
  have key : ∀ ns : ℕ → ℕ → ℕ → ℕ → ℝ,
      reheating_oscillations grid 1 ε ω delta_chi ns
        = ⟨grid.size, fun i j k => grid.val i j k * (1 + ε)⟩ := by
    intro ns
    show reheat_step ε ω delta_chi ns 0 grid = _
    unfold reheat_step
    refine congrArg (ScalarField.mk grid.size) ?_
    funext i j k
    norm_num
  exact ⟨key noise, fun n1 n2 => (key n1).trans (key n2).symm⟩
